import Mathlib

/-!
# bitrise-step-github-release-downloader: a verification development of `main.go`

The development embeds the pure parts of `main.go` (`parseRepo`, `contains`,
`getRelease` and the asset-selection stage of `main`) together with the few
functions of Go's `strings` package they call, and proves properties about them.

A Go `string` is a sequence of bytes. It is represented by a list of symbols,
one list element per byte; every separator the program searches for is a single
ASCII byte, so the statements quantified over all lists cover all byte strings.
-/

namespace GithubReleaseDownloader

/-- A Go string: the sequence of its bytes, one list element per byte. -/
abbrev GoString := List Char

/-- The run-time panics of Go that the embedded code can raise. -/
inductive GoPanic where
  /-- A slice expression `s[lo:hi]` whose bounds are out of range. -/
  | sliceBoundsOutOfRange
  /-- An index expression `a[i]` with `i` out of range. -/
  | indexOutOfRange
  /-- A dereference `*p` of a nil pointer. -/
  | nilPointerDereference
  deriving DecidableEq, Repr

/-! ## The functions of Go's `strings` package used by the program -/

/-- Go `strings.HasPrefix(s, prefix)`: `s` begins with the given bytes. -/
def HasPrefix (s pre : GoString) : Bool :=
  pre.isPrefixOf s

/-- Go `strings.HasSuffix(s, suffix)`: `s` ends with `suffix`. -/
def HasSuffix (s suf : GoString) : Bool :=
  suf.isSuffixOf s

/-- Go `strings.TrimPrefix(s, prefix)`: `s` without the leading bytes if it
has them, `s` unchanged otherwise. -/
def TrimPrefix (s pre : GoString) : GoString :=
  if ( HasPrefix s pre) then s.drop pre.length else s

/-- Go `strings.TrimSuffix(s, suffix)`: `s[:len(s)-len(suffix)]` if `s` ends with
`suffix`, `s` unchanged otherwise. Only one occurrence is removed. -/
def TrimSuffix (s suf : GoString) : GoString :=
  if HasSuffix s suf then s.take (s.length - suf.length) else s

/-- Search for `substr` in `s`, where `s` is the part of the searched string that
starts at byte offset `i`. -/
def indexFrom (substr : GoString) : GoString → Nat → Int
  | [], i => if substr.isEmpty then (i : Int) else -1
  | c :: cs, i => if substr.isPrefixOf (c :: cs) then (i : Int) else indexFrom substr cs (i + 1)

/-- Go `strings.Index(s, substr)`: the byte offset of the first instance of
`substr` in `s`, or `-1` if there is none. -/
def Index (s substr : GoString) : Int :=
  indexFrom substr s 0

/-- The loop of Go's `genSplit` for a non-empty separator: cut at the first
instance of `sep`, continue behind it, and stop when `Index` reports `-1`. The
counter bounds the number of cuts. -/
def genSplit (sep : GoString) : Nat → GoString → List GoString
  | 0, s => [s]
  | n + 1, s =>
    let m := Index s sep
    if m < 0 then [s]
    else s.take m.toNat :: genSplit sep n (s.drop (m.toNat + sep.length))

/-- Go `strings.Split(s, sep)`: the substrings of `s` between the instances of
`sep`; a single element `s` when `sep` does not occur. For the empty separator Go
splits after every character. The number of cuts is bounded by `len(s)`, which a
non-empty separator never exhausts. -/
def Split (s sep : GoString) : List GoString :=
  if sep.isEmpty then s.map (fun c => [c]) else genSplit sep s.length s

/-- Go slice expression `s[:hi]` on a string, with its bounds check. -/
def sliceTo (s : GoString) (hi : Int) : Except GoPanic GoString :=
  if 0 ≤ hi ∧ hi ≤ (s.length : Int) then .ok (s.take hi.toNat)
  else .error .sliceBoundsOutOfRange

/-- Go slice expression `s[lo:]` on a string, with its bounds check. -/
def sliceFrom (s : GoString) (lo : Int) : Except GoPanic GoString :=
  if 0 ≤ lo ∧ lo ≤ (s.length : Int) then .ok (s.drop lo.toNat)
  else .error .sliceBoundsOutOfRange

/-- Go index expression `a[i]` on a slice of strings, with its bounds check. -/
def indexAt (a : List GoString) (i : Nat) : Except GoPanic GoString :=
  match a.get? i with
  | some v => .ok v
  | none => .error .indexOutOfRange

/-! ## `parseRepo` -/

/-- The literal `".git"`. -/
def dotGit : GoString := ['.', 'g', 'i', 't']

/-- The literal `"https://"`. -/
def httpsScheme : GoString := ['h', 't', 't', 'p', 's', ':', '/', '/']

/-- The literal `"git@"`. -/
def gitAt : GoString := ['g', 'i', 't', '@']

/-- The literal `"ssh://"`. -/
def sshScheme : GoString := ['s', 's', 'h', ':', '/', '/']

/-- The `switch` statement of `parseRepo`, run on the URL already stripped of its
`".git"` suffix: the values it leaves in `host` and `repo`, or the panic of a slice
expression. When no case applies, both keep their zero value `""`. -/
def switchHostRepo (url : GoString) : Except GoPanic (GoString × GoString) :=
  if ( HasPrefix url httpsScheme) then do
    let url := TrimPrefix url httpsScheme
    let idx := Index url ['/']
    let host ← sliceTo url idx
    let repo ← sliceFrom url (idx + 1)
    pure (host, repo)
  else if ( HasPrefix url gitAt) then do
    let url ← sliceFrom url (Index url ['@'] + 1)
    let idx := Index url [':']
    let host ← sliceTo url idx
    let repo ← sliceFrom url (idx + 1)
    pure (host, repo)
  else if ( HasPrefix url sshScheme) then do
    let url ← sliceFrom url (Index url ['@'] + 1)
    let host ← sliceTo url (Index url [':'])
    let repo ← sliceFrom url (Index url ['/'] + 1)
    pure (host, repo)
  else
    pure ([], [])

/-- The last two statements of `parseRepo`, on the `host` and `repo` the `switch`
left: split `repo` on `"/"` and return `host, split[0], split[1]`. -/
def splitOwnerName (host repo : GoString) : Except GoPanic (GoString × GoString × GoString) := do
  let split := Split repo ['/']
  let owner ← indexAt split 0
  let name ← indexAt split 1
  pure (host, owner, name)

/-- The function `parseRepo` of `main.go`. It returns `(host, owner, name)`, or
the run-time panic raised on the way. -/
def parseRepo (url : GoString) : Except GoPanic (GoString × GoString × GoString) := do
  let url := TrimSuffix url dotGit
  let (host, repo) ← switchHostRepo url
  splitOwnerName host repo

/-! ## `contains` and the asset selection of `main` -/

/-- The function `contains` of `main.go`: a linear scan with `==` on strings that
returns at the first equal element. -/
def contains (arr : List GoString) (str : GoString) : Bool :=
  match arr with
  | [] => false
  | v :: rest => if v == str then true else contains rest str

/-- The struct `Meta` of `main.go`: one download task. -/
structure Meta where
  /-- The name of the local file, the asset's name. -/
  FileName : GoString
  /-- The URL the asset is fetched from. -/
  FileURL : GoString
  deriving DecidableEq, Repr

/-- The fields of go-github's `ReleaseAsset` that `main` reads. Both are pointers
to strings in Go (`*string`), so each can be nil. -/
structure ReleaseAsset where
  /-- The field `Name *string`. -/
  Name : Option GoString
  /-- The field `URL *string`. -/
  URL : Option GoString
  deriving DecidableEq, Repr

/-- go-github's accessor `GetName`: the name, or `""` when the pointer is nil. -/
def ReleaseAsset.GetName (a : ReleaseAsset) : GoString :=
  match a.Name with
  | some n => n
  | none => []

/-- go-github's accessor `GetURL`: the URL, or `""` when the pointer is nil. -/
def ReleaseAsset.GetURL (a : ReleaseAsset) : GoString :=
  match a.URL with
  | some u => u
  | none => []

/-- An asset of the release as the hosting API describes it: with a name and a
URL, both present. -/
def ReleaseAsset.named (name url : GoString) : ReleaseAsset :=
  ⟨some name, some url⟩

/-- The task `main` appends for an asset it selects:
`Meta{asset.GetName(), asset.GetURL()}`. -/
def ReleaseAsset.toMeta (a : ReleaseAsset) : Meta :=
  Meta.mk a.GetName a.GetURL

/-- The ways the run stops before `main` reaches its end. -/
inductive Stop where
  /-- A run-time panic. -/
  | panic (p : GoPanic)
  /-- The function `failf` of `main.go`: the error line with the given format is
  logged and the process ends through `os.Exit(code)`. -/
  | exit (code : Nat) (format : String)
  deriving DecidableEq, Repr

/-- The function `failf` of `main.go`: `log.Errorf(format, ...)`, then `os.Exit(1)`. -/
def failf (format : String) : Stop :=
  .exit 1 format

/-- The loop `for _, asset := range assets` of `main`, with `metas` the slice built
so far: `*asset.Name` is dereferenced, and when `contains` finds it among the
requested names a `Meta` is appended. -/
def selectLoop (fileNames : List GoString) : List ReleaseAsset → List Meta → Except Stop (List Meta)
  | [], metas => .ok metas
  | asset :: rest, metas =>
    match asset.Name with
    | none => .error (.panic .nilPointerDereference)
    | some n =>
      if contains fileNames n then
        selectLoop fileNames rest (metas ++ [Meta.mk asset.GetName asset.GetURL])
      else
        selectLoop fileNames rest metas

/-- The tasks `main` builds from the configured `FileNames` string and the assets of
the release: `fileNames := strings.Split(c.FileNames, ",")`, then the loop, which
starts from the nil slice `metas`. -/
def buildMetas (FileNames : GoString) (assets : List ReleaseAsset) : Except Stop (List Meta) :=
  selectLoop (Split FileNames [',']) assets []

/-- The selection stage of `main` on the list of requested names: the loop, then
the check `len(metas) < 1`, which ends the run through `failf`. The result `ok metas`
is the list the download loop ranges over, one goroutine per element. -/
def selectionStage (fileNames : List GoString) (assets : List ReleaseAsset) :
    Except Stop (List Meta) := do
  let metas ← selectLoop fileNames assets []
  if metas.length < 1 then
    .error (failf "No such files on target release: %v")
  else
    pure metas

/-! ## `getRelease` -/

/-- The two methods of go-github's `client.Repositories` that `getRelease` calls.
The type `ρ` stands for what a lookup returns: the release, the response and the
error. The context argument is handed on unchanged and is left out. -/
structure RepositoriesService (ρ : Type) where
  /-- The lookup `GetLatestRelease(ctx, owner, repo)`. -/
  GetLatestRelease : GoString → GoString → ρ
  /-- The lookup `GetReleaseByTag(ctx, owner, repo, tag)`. -/
  GetReleaseByTag : GoString → GoString → GoString → ρ

/-- The literal `"latest"`. -/
def latestTag : GoString := ['l', 'a', 't', 'e', 's', 't']

/-- The function `getRelease` of `main.go`. -/
def getRelease {ρ : Type} (client : RepositoriesService ρ) (tag owner repo : GoString) : ρ :=
  if tag == latestTag then
    client.GetLatestRelease owner repo
  else
    client.GetReleaseByTag owner repo tag

/-- A record of the lookup a client was asked for. -/
inductive ApiCall where
  /-- The call `GetLatestRelease(ctx, owner, repo)`. -/
  | latestRelease (owner repo : GoString)
  /-- The call `GetReleaseByTag(ctx, owner, repo, tag)`. -/
  | releaseByTag (owner repo tag : GoString)
  deriving DecidableEq, Repr

/-- The client whose lookups return the record of the call made. -/
def recordingClient : RepositoriesService ApiCall :=
  ⟨ApiCall.latestRelease, ApiCall.releaseByTag⟩

/-! ## Lemmas on the string functions -/

theorem ok_bind {ε α β : Type} (a : α) (f : α → Except ε β) :
    (Except.ok a >>= f) = f a := rfl

theorem HasPrefix_append (p s : GoString) : HasPrefix (p ++ s) p = true := by
  simp [HasPrefix]

theorem TrimPrefix_append (p s : GoString) : TrimPrefix (p ++ s) p = s := by
  simp [TrimPrefix, HasPrefix]

theorem HasSuffix_append (s suf : GoString) : HasSuffix (s ++ suf) suf = true := by
  simp [HasSuffix]

theorem TrimSuffix_append (s suf : GoString) : TrimSuffix (s ++ suf) suf = s := by
  simp [TrimSuffix, HasSuffix]

theorem TrimSuffix_of_not (s suf : GoString) (h : HasSuffix s suf = false) :
    TrimSuffix s suf = s := by
  simp [TrimSuffix, h]

theorem indexFrom_single_not_mem (c : Char) (s : GoString) (i : Nat) (h : c ∉ s) :
    indexFrom [c] s i = -1 := by
  induction s generalizing i with
  | nil => simp [indexFrom]
  | cons d ds ih =>
    simp only [List.mem_cons, not_or] at h
    have hd : ¬ (c = d) := h.1
    simp [indexFrom, hd, ih (i + 1) h.2]

theorem indexFrom_single_append (c : Char) (a b : GoString) (i : Nat) (h : c ∉ a) :
    indexFrom [c] (a ++ c :: b) i = ((i + a.length : Nat) : Int) := by
  induction a generalizing i with
  | nil => simp [indexFrom]
  | cons d ds ih =>
    simp only [List.mem_cons, not_or] at h
    have hd : ¬ (c = d) := h.1
    simp [indexFrom, hd, ih (i + 1) h.2]
    omega

theorem Index_single_not_mem (c : Char) (s : GoString) (h : c ∉ s) : Index s [c] = -1 :=
  indexFrom_single_not_mem c s 0 h

theorem Index_single_append (c : Char) (a b : GoString) (h : c ∉ a) :
    Index (a ++ c :: b) [c] = (a.length : Int) := by
  simp [Index, indexFrom_single_append c a b 0 h]

theorem sliceTo_append (a b : GoString) : sliceTo (a ++ b) (a.length : Int) = .ok a := by
  simp [sliceTo]

theorem sliceFrom_append (a b : GoString) (c : Char) :
    sliceFrom (a ++ c :: b) ((a.length : Int) + 1) = .ok b := by
  have h : ((a.length : Int) + 1).toNat = a.length + 1 := by omega
  have h2 : (0 : Int) ≤ (a.length : Int) + 1 := by omega
  simp [sliceFrom, h, h2]

theorem genSplit_single_not_mem (c : Char) (s : GoString) (n : Nat) (h : c ∉ s) :
    genSplit [c] n s = [s] := by
  cases n with
  | zero => rfl
  | succ n => simp [genSplit, Index_single_not_mem c s h]

theorem Split_single_not_mem (c : Char) (s : GoString) (h : c ∉ s) : Split s [c] = [s] := by
  simp [Split, genSplit_single_not_mem c s _ h]

theorem Split_single_append (c : Char) (a b : GoString) (ha : c ∉ a) (hb : c ∉ b) :
    Split (a ++ c :: b) [c] = [a, b] := by
  simp [Split, genSplit, Index_single_append c a b ha, genSplit_single_not_mem c b _ hb]

/-! ## Adequacy of the cut counter in `Split` for a one-byte separator -/

theorem first_occurrence (c : Char) (s : GoString) (h : c ∈ s) :
    ∃ a b, s = a ++ c :: b ∧ c ∉ a := by
  induction s with
  | nil => exact absurd h (List.not_mem_nil c)
  | cons d ds ih =>
    by_cases hd : c = d
    · exact ⟨[], ds, by simp [hd], List.not_mem_nil c⟩
    · have hmem : c ∈ ds := by
        rcases List.mem_cons.mp h with h1 | h1
        · exact absurd h1 hd
        · exact h1
      obtain ⟨a, b, hs, ha⟩ := ih hmem
      refine ⟨d :: a, b, by simp [hs], ?_⟩
      simp only [List.mem_cons, not_or]
      exact ⟨hd, ha⟩

theorem genSplit_single_spec (c : Char) (n : Nat) (s : GoString) (hn : s.length ≤ n) :
    (∀ p ∈ genSplit [c] n s, c ∉ p) ∧ [c].intercalate (genSplit [c] n s) = s := by
  induction n generalizing s with
  | zero =>
    have hs : s = [] := List.length_eq_zero.mp (Nat.le_zero.mp hn)
    subst hs
    simp [genSplit, List.intercalate]
  | succ n ih =>
    by_cases hc : c ∈ s
    · obtain ⟨a, b, hs, ha⟩ := first_occurrence c s hc
      subst hs
      have hb : b.length ≤ n := by
        simp only [List.length_append, List.length_cons] at hn
        omega
      have ha2 : ¬ ((a.length : Int) < 0) := by omega
      have hg : genSplit [c] (n + 1) (a ++ c :: b) = a :: genSplit [c] n b := by
        simp [genSplit, Index_single_append c a b ha, ha2]
      obtain ⟨ih1, ih2⟩ := ih b hb
      rw [hg]
      refine ⟨?_, ?_⟩
      · intro p hp
        rcases List.mem_cons.mp hp with h1 | h1
        · rw [h1]; exact ha
        · exact ih1 p h1
      · cases hgs : genSplit [c] n b with
        | nil =>
          cases n with
          | zero => simp [genSplit] at hgs
          | succ m =>
            simp only [genSplit] at hgs
            split at hgs <;> simp at hgs
        | cons q qs =>
          rw [hgs] at ih2
          simp only [List.intercalate, List.intersperse, List.flatten_cons, List.singleton_append,
            List.append_cancel_left_eq] at ih2 ⊢
          rw [ih2]
    · rw [genSplit_single_not_mem c s _ hc]
      exact ⟨by simpa using hc, by simp [List.intercalate]⟩

theorem Split_single_spec (c : Char) (s : GoString) :
    (∀ p ∈ Split s [c], c ∉ p) ∧ [c].intercalate (Split s [c]) = s := by
  have h : Split s [c] = genSplit [c] s.length s := by simp [Split]
  rw [h]
  exact genSplit_single_spec c s.length s (Nat.le_refl _)

/-! ## Lemmas on `parseRepo` -/

theorem splitOwnerName_two (host owner name : GoString) (ho : '/' ∉ owner) (hn : '/' ∉ name) :
    splitOwnerName host (owner ++ '/' :: name) = .ok (host, owner, name) := by
  simp [splitOwnerName, Split_single_append '/' owner name ho hn, indexAt]
  rfl

theorem switchHostRepo_https (host repo : GoString) (hh : '/' ∉ host) :
    switchHostRepo (httpsScheme ++ (host ++ '/' :: repo)) = .ok (host, repo) := by
  simp only [switchHostRepo, HasPrefix_append, TrimPrefix_append, if_true,
    Index_single_append '/' host repo hh, sliceTo_append, sliceFrom_append]
  rfl

theorem switchHostRepo_gitAt (host repo : GoString) (hh : ':' ∉ host) :
    switchHostRepo (gitAt ++ (host ++ ':' :: repo)) = .ok (host, repo) := by
  have hp : HasPrefix (gitAt ++ (host ++ ':' :: repo)) httpsScheme = false := rfl
  have hi : Index (gitAt ++ (host ++ ':' :: repo)) ['@']
      = ((['g', 'i', 't'] : GoString).length : Int) :=
    Index_single_append '@' ['g', 'i', 't'] (host ++ ':' :: repo) (by decide)
  have hs : sliceFrom (gitAt ++ (host ++ ':' :: repo))
      (((['g', 'i', 't'] : GoString).length : Int) + 1) = .ok (host ++ ':' :: repo) :=
    sliceFrom_append ['g', 'i', 't'] (host ++ ':' :: repo) '@'
  simp only [switchHostRepo, hp, HasPrefix_append, ok_bind, hi, hs, if_true, Bool.false_eq_true, if_false,
    Index_single_append ':' host repo hh, sliceTo_append, sliceFrom_append]
  rfl

theorem switchHostRepo_ssh (host port repo : GoString)
    (hh : ':' ∉ host) (hh2 : '/' ∉ host) (hp : '/' ∉ port) :
    switchHostRepo (sshScheme ++ (gitAt ++ (host ++ ':' :: (port ++ '/' :: repo))))
      = .ok (host, repo) := by
  have h1 : HasPrefix (sshScheme ++ (gitAt ++ (host ++ ':' :: (port ++ '/' :: repo)))) httpsScheme
      = false := rfl
  have h2 : HasPrefix (sshScheme ++ (gitAt ++ (host ++ ':' :: (port ++ '/' :: repo)))) gitAt
      = false := rfl
  have hi : Index (sshScheme ++ (gitAt ++ (host ++ ':' :: (port ++ '/' :: repo)))) ['@']
      = (((sshScheme ++ ['g', 'i', 't'] : GoString)).length : Int) :=
    Index_single_append '@' (sshScheme ++ ['g', 'i', 't']) (host ++ ':' :: (port ++ '/' :: repo))
      (by decide)
  have hs : sliceFrom (sshScheme ++ (gitAt ++ (host ++ ':' :: (port ++ '/' :: repo))))
      ((((sshScheme ++ ['g', 'i', 't'] : GoString)).length : Int) + 1)
      = .ok (host ++ ':' :: (port ++ '/' :: repo)) :=
    sliceFrom_append (sshScheme ++ ['g', 'i', 't']) (host ++ ':' :: (port ++ '/' :: repo)) '@'
  have hsl : '/' ∉ host ++ ':' :: port := by
    simp [hh2, hp]
  have hi2 : Index (host ++ ':' :: (port ++ '/' :: repo)) ['/']
      = ((host ++ ':' :: port).length : Int) := by
    have := Index_single_append '/' (host ++ ':' :: port) repo hsl
    simpa using this
  have hs2 : sliceFrom (host ++ ':' :: (port ++ '/' :: repo))
      (((host ++ ':' :: port).length : Int) + 1) = .ok repo := by
    have := sliceFrom_append (host ++ ':' :: port) repo '/'
    simpa using this
  simp only [switchHostRepo, h1, h2, HasPrefix_append, ok_bind, hi, hs, hi2, hs2, if_true,
    Bool.false_eq_true, if_false,
    Index_single_append ':' host (port ++ '/' :: repo) hh, sliceTo_append]
  rfl



theorem suffix_of_suffix_append_cons (c : Char) (a b t : GoString) (hc : c ∉ t)
    (h : t <:+ a ++ c :: b) : t <:+ b := by
  have h2 : c :: b <:+ a ++ c :: b := List.suffix_append a (c :: b)
  rcases List.suffix_or_suffix_of_suffix h h2 with h3 | h3
  · rcases List.suffix_cons_iff.mp h3 with h4 | h4
    · exact absurd (h4 ▸ List.mem_cons_self c b) hc
    · exact h4
  · exact absurd (h3.subset (List.mem_cons_self c b)) hc

theorem HasSuffix_append_cons (c : Char) (a b t : GoString) (hc : c ∉ t)
    (h : HasSuffix b t = false) : HasSuffix (a ++ c :: b) t = false := by
  cases hs : HasSuffix (a ++ c :: b) t with
  | false => rfl
  | true =>
    have h1 : t <:+ a ++ c :: b := by simpa [HasSuffix] using hs
    have h2 : t <:+ b := suffix_of_suffix_append_cons c a b t hc h1
    have h3 : HasSuffix b t = true := by simpa [HasSuffix] using h2
    rw [h] at h3
    exact absurd h3 (by decide)

theorem parseRepo_of_switch (u host repo : GoString)
    (h : switchHostRepo (TrimSuffix u dotGit) = .ok (host, repo)) :
    parseRepo u = splitOwnerName host repo := by
  simp only [parseRepo, h, ok_bind]

/-- C2: for `host`, `owner` and `name` without `'/'`, `parseRepo` returns
`(host, owner, name)` on `"https://" ++ host ++ "/" ++ owner ++ "/" ++ name ++ ".git"`,
and also on the same URL without the `".git"` suffix when `name` does not end in
`".git"`. -/
theorem parseRepo_https_shape (host owner name : GoString)
    (hh : '/' ∉ host) (ho : '/' ∉ owner) (hn : '/' ∉ name) :
    parseRepo (httpsScheme ++ host ++ ['/'] ++ owner ++ ['/'] ++ name ++ dotGit)
        = .ok (host, owner, name)
      ∧ (HasSuffix name dotGit = false →
          parseRepo (httpsScheme ++ host ++ ['/'] ++ owner ++ ['/'] ++ name)
            = .ok (host, owner, name)) := by
  have hsw := switchHostRepo_https host (owner ++ '/' :: name) hh
  constructor
  · have ht := TrimSuffix_append (httpsScheme ++ (host ++ '/' :: (owner ++ '/' :: name))) dotGit
    simp only [List.append_assoc, List.cons_append, List.nil_append] at ht ⊢
    rw [parseRepo_of_switch _ host (owner ++ '/' :: name) (by rw [ht]; exact hsw)]
    exact splitOwnerName_two host owner name ho hn
  · intro hs
    have hs2 : HasSuffix (httpsScheme ++ (host ++ '/' :: (owner ++ '/' :: name))) dotGit = false := by
      have := HasSuffix_append_cons '/' (httpsScheme ++ (host ++ '/' :: owner)) name dotGit
        (by decide) hs
      simpa using this
    have ht := TrimSuffix_of_not _ _ hs2
    simp only [List.append_assoc, List.cons_append, List.nil_append] at ht ⊢
    rw [parseRepo_of_switch _ host (owner ++ '/' :: name) (by rw [ht]; exact hsw)]
    exact splitOwnerName_two host owner name ho hn

/-- Witness of C2: the URL `"https://github.com/acme/widgets.git"`. -/
theorem parseRepo_https_shape_witness :
    parseRepo "https://github.com/acme/widgets.git".toList
        = .ok ("github.com".toList, "acme".toList, "widgets".toList)
      ∧ parseRepo "https://github.com/acme/widgets".toList
        = .ok ("github.com".toList, "acme".toList, "widgets".toList) := by
  have h := parseRepo_https_shape "github.com".toList "acme".toList "widgets".toList
    (by decide) (by decide) (by decide)
  exact ⟨h.1, h.2 (by rfl)⟩

/-- C3: for `host` without `':'` and `owner`, `name` without `'/'`, `parseRepo`
returns `(host, owner, name)` on `"git@" ++ host ++ ":" ++ owner ++ "/" ++ name ++ ".git"`,
and also on the same URL without the `".git"` suffix when `name` does not end in
`".git"`. -/
theorem parseRepo_scp_shape (host owner name : GoString)
    (hh : ':' ∉ host) (ho : '/' ∉ owner) (hn : '/' ∉ name) :
    parseRepo (gitAt ++ host ++ [':'] ++ owner ++ ['/'] ++ name ++ dotGit)
        = .ok (host, owner, name)
      ∧ (HasSuffix name dotGit = false →
          parseRepo (gitAt ++ host ++ [':'] ++ owner ++ ['/'] ++ name)
            = .ok (host, owner, name)) := by
  have hsw := switchHostRepo_gitAt host (owner ++ '/' :: name) hh
  constructor
  · have ht := TrimSuffix_append (gitAt ++ (host ++ ':' :: (owner ++ '/' :: name))) dotGit
    simp only [List.append_assoc, List.cons_append, List.nil_append] at ht ⊢
    rw [parseRepo_of_switch _ host (owner ++ '/' :: name) (by rw [ht]; exact hsw)]
    exact splitOwnerName_two host owner name ho hn
  · intro hs
    have hs2 : HasSuffix (gitAt ++ (host ++ ':' :: (owner ++ '/' :: name))) dotGit = false := by
      have := HasSuffix_append_cons '/' (gitAt ++ (host ++ ':' :: owner)) name dotGit
        (by decide) hs
      simpa using this
    have ht := TrimSuffix_of_not _ _ hs2
    simp only [List.append_assoc, List.cons_append, List.nil_append] at ht ⊢
    rw [parseRepo_of_switch _ host (owner ++ '/' :: name) (by rw [ht]; exact hsw)]
    exact splitOwnerName_two host owner name ho hn

/-- Witness of C3: the URL `"git@github.com:acme/widgets.git"`. -/
theorem parseRepo_scp_shape_witness :
    parseRepo "git@github.com:acme/widgets.git".toList
        = .ok ("github.com".toList, "acme".toList, "widgets".toList)
      ∧ parseRepo "git@github.com:acme/widgets".toList
        = .ok ("github.com".toList, "acme".toList, "widgets".toList) := by
  have h := parseRepo_scp_shape "github.com".toList "acme".toList "widgets".toList
    (by decide) (by decide) (by decide)
  exact ⟨h.1, h.2 (by rfl)⟩

/-- C4: for `host` without `':'` and `'/'`, and `port`, `owner`, `name` without
`'/'`, `parseRepo` returns `(host, owner, name)` on
`"ssh://git@" ++ host ++ ":" ++ port ++ "/" ++ owner ++ "/" ++ name` when `name` does
not end in `".git"`, and on that URL with `".git"` appended for every such `name`;
the port is not part of the result. -/
theorem parseRepo_ssh_shape (host port owner name : GoString)
    (hh : ':' ∉ host) (hh2 : '/' ∉ host) (hp : '/' ∉ port)
    (ho : '/' ∉ owner) (hn : '/' ∉ name) :
    (HasSuffix name dotGit = false →
        parseRepo (sshScheme ++ gitAt ++ host ++ [':'] ++ port ++ ['/'] ++ owner ++ ['/'] ++ name)
          = .ok (host, owner, name))
      ∧ parseRepo (sshScheme ++ gitAt ++ host ++ [':'] ++ port ++ ['/'] ++ owner ++ ['/'] ++ name
            ++ dotGit)
          = .ok (host, owner, name) := by
  have hsw := switchHostRepo_ssh host port (owner ++ '/' :: name) hh hh2 hp
  constructor
  · intro hs
    have hs2 : HasSuffix (sshScheme ++ (gitAt ++ (host ++ ':' :: (port ++ '/' ::
        (owner ++ '/' :: name))))) dotGit = false := by
      have := HasSuffix_append_cons '/'
        (sshScheme ++ (gitAt ++ (host ++ ':' :: (port ++ '/' :: owner)))) name dotGit
        (by decide) hs
      simpa using this
    have ht := TrimSuffix_of_not _ _ hs2
    simp only [List.append_assoc, List.cons_append, List.nil_append] at ht ⊢
    rw [parseRepo_of_switch _ host (owner ++ '/' :: name) (by rw [ht]; exact hsw)]
    exact splitOwnerName_two host owner name ho hn
  · have ht := TrimSuffix_append
      (sshScheme ++ (gitAt ++ (host ++ ':' :: (port ++ '/' :: (owner ++ '/' :: name))))) dotGit
    simp only [List.append_assoc, List.cons_append, List.nil_append] at ht ⊢
    rw [parseRepo_of_switch _ host (owner ++ '/' :: name) (by rw [ht]; exact hsw)]
    exact splitOwnerName_two host owner name ho hn

/-- Witness of C4: the URL `"ssh://git@github.com:22/acme/widgets"`. -/
theorem parseRepo_ssh_shape_witness :
    parseRepo "ssh://git@github.com:22/acme/widgets".toList
        = .ok ("github.com".toList, "acme".toList, "widgets".toList)
      ∧ parseRepo "ssh://git@github.com:22/acme/widgets.git".toList
        = .ok ("github.com".toList, "acme".toList, "widgets".toList) := by
  have h := parseRepo_ssh_shape "github.com".toList "22".toList "acme".toList "widgets".toList
    (by decide) (by decide) (by decide) (by decide) (by decide)
  exact ⟨h.1 (by rfl), h.2⟩

/-! ## Lemmas on `contains` and the selection loop -/

theorem contains_eq_decide (arr : List GoString) (str : GoString) :
    contains arr str = decide (str ∈ arr) := by
  induction arr with
  | nil => simp [contains]
  | cons v rest ih =>
    by_cases h : v = str
    · simp [contains, h]
    · have h2 : ¬ (str = v) := fun e => h e.symm
      simp [contains, h, h2, ih]

theorem contains_iff (arr : List GoString) (str : GoString) :
    contains arr str = true ↔ str ∈ arr := by
  simp [contains_eq_decide]

theorem selectLoop_named (R : List GoString) (A : List (GoString × GoString)) (acc : List Meta) :
    selectLoop R (A.map (fun a => ReleaseAsset.named a.1 a.2)) acc
      = .ok (acc ++ (A.filter (fun a => decide (a.1 ∈ R))).map (fun a => Meta.mk a.1 a.2)) := by
  induction A generalizing acc with
  | nil => simp [selectLoop]
  | cons a rest ih =>
    have hN : (ReleaseAsset.named a.1 a.2).Name = some a.1 := rfl
    have hG : (ReleaseAsset.named a.1 a.2).GetName = a.1 := rfl
    have hU : (ReleaseAsset.named a.1 a.2).GetURL = a.2 := rfl
    by_cases h : a.1 ∈ R
    · simp only [List.map_cons, selectLoop, hN, hG, hU, contains_eq_decide, h, decide_True,
        if_true, ih, List.filter_cons_of_pos, List.append_assoc, List.singleton_append]
    · simp only [List.map_cons, selectLoop, hN, contains_eq_decide, h, decide_False,
        Bool.false_eq_true, if_false, ih, not_false_eq_true, List.filter_cons_of_neg]

theorem selectLoop_congr (R R' : List GoString) (h : ∀ x, x ∈ R ↔ x ∈ R')
    (assets : List ReleaseAsset) (acc : List Meta) :
    selectLoop R assets acc = selectLoop R' assets acc := by
  induction assets generalizing acc with
  | nil => rfl
  | cons a rest ih =>
    cases hn : a.Name with
    | none => simp [selectLoop, hn]
    | some n => simp [selectLoop, hn, contains_eq_decide, h n, ih]

theorem selectLoop_sublist (R : List GoString) (assets : List ReleaseAsset) (acc metas : List Meta)
    (h : selectLoop R assets acc = .ok metas) :
    ∃ sel, metas = acc ++ sel ∧ sel.Sublist (assets.map ReleaseAsset.toMeta) := by
  induction assets generalizing acc with
  | nil =>
    simp only [selectLoop, Except.ok.injEq] at h
    exact ⟨[], by simp [h], by simp⟩
  | cons a rest ih =>
    cases hn : a.Name with
    | none => simp [selectLoop, hn] at h
    | some n =>
      by_cases hc : contains R n = true
      · simp only [selectLoop, hn, hc, if_true] at h
        obtain ⟨sel, h1, h2⟩ := ih _ h
        refine ⟨a.toMeta :: sel, ?_, ?_⟩
        · simp [h1, ReleaseAsset.toMeta]
        · simpa using h2.cons₂ a.toMeta
      · simp only [selectLoop, hn, hc, if_false, Bool.false_eq_true] at h
        obtain ⟨sel, h1, h2⟩ := ih _ h
        exact ⟨sel, h1, by simpa using h2.cons a.toMeta⟩

/-! ## The asset selection of `main` -/

/-- C1: for assets that each have a name and a URL and for every requested-names
string `s`, the tasks `main` builds are the `Meta{name, url}` of the assets whose
name is an element of `Split(s, ",")`, in the order of the assets; so every task's
file name is a requested name and the name of an asset of the release. -/
theorem buildMetas_eq_filter (A : List (GoString × GoString)) (s : GoString) :
    buildMetas s (A.map (fun a => ReleaseAsset.named a.1 a.2))
        = .ok ((A.filter (fun a => decide (a.1 ∈ Split s [',']))).map
            (fun a => Meta.mk a.1 a.2))
      ∧ ∀ metas, buildMetas s (A.map (fun a => ReleaseAsset.named a.1 a.2)) = .ok metas →
          ∀ m ∈ metas, m.FileName ∈ Split s [',']
            ∧ ∃ a ∈ A, a.1 = m.FileName ∧ a.2 = m.FileURL := by
  have h : buildMetas s (A.map (fun a => ReleaseAsset.named a.1 a.2))
      = .ok ((A.filter (fun a => decide (a.1 ∈ Split s [',']))).map
          (fun a => Meta.mk a.1 a.2)) := by
    simp [buildMetas, selectLoop_named]
  refine ⟨h, ?_⟩
  intro metas hm m hmem
  rw [h] at hm
  injection hm with hm
  subst hm
  obtain ⟨a, ha, rfl⟩ := List.mem_map.mp hmem
  have ha2 := List.mem_filter.mp ha
  exact ⟨by simpa using ha2.2, a, ha2.1, rfl, rfl⟩

/-- Witness of C1: assets `a.zip`, `b.zip`, `c.zip` and the requested names
`"a.zip,c.zip"` give the two tasks for `a.zip` and `c.zip`. -/
theorem buildMetas_eq_filter_witness :
    buildMetas "a.zip,c.zip".toList
        [ReleaseAsset.named "a.zip".toList "https://api/assets/1".toList,
         ReleaseAsset.named "b.zip".toList "https://api/assets/2".toList,
         ReleaseAsset.named "c.zip".toList "https://api/assets/3".toList]
      = .ok [Meta.mk "a.zip".toList "https://api/assets/1".toList,
             Meta.mk "c.zip".toList "https://api/assets/3".toList] :=
  (buildMetas_eq_filter
    [("a.zip".toList, "https://api/assets/1".toList),
     ("b.zip".toList, "https://api/assets/2".toList),
     ("c.zip".toList, "https://api/assets/3".toList)] "a.zip,c.zip".toList).1.trans (by rfl)

theorem selectLoop_all_named (R : List GoString) (assets : List ReleaseAsset)
    (hname : ∀ a ∈ assets, a.Name ≠ none) (acc : List Meta) :
    selectLoop R assets acc
      = .ok (acc ++ (assets.filter (fun a => decide (a.GetName ∈ R))).map ReleaseAsset.toMeta) := by
  induction assets generalizing acc with
  | nil => simp [selectLoop]
  | cons a rest ih =>
    have hrest : ∀ b ∈ rest, b.Name ≠ none := fun b hb => hname b (List.mem_cons_of_mem a hb)
    cases hn : a.Name with
    | none => exact absurd hn (hname a (List.mem_cons_self a rest))
    | some n =>
      have hG : a.GetName = n := by simp [ReleaseAsset.GetName, hn]
      by_cases h : n ∈ R
      · simp only [selectLoop, hn, hG, contains_eq_decide, h, decide_True, if_true, ih hrest,
          List.filter_cons_of_pos, List.map_cons, List.append_assoc, List.singleton_append,
          ReleaseAsset.toMeta]
      · simp only [selectLoop, hn, hG, contains_eq_decide, h, decide_False, Bool.false_eq_true,
          if_false, ih hrest, not_false_eq_true, List.filter_cons_of_neg]

/-- C5, as the code behaves: for every asset list in which every asset's `Name` is
set and for every list `R` of requested names, the selection stage of `main` ends in
the fatal path `failf("No such files on target release: %v")` with exit code 1
exactly when no asset name is an element of `R`; in that case the loop has built no
task and none is handed to the download loop; when some asset name is in `R` the
stage returns a non-empty task list. -/
theorem selectionStage_fails_iff (assets : List ReleaseAsset) (R : List GoString)
    (hname : ∀ a ∈ assets, a.Name ≠ none) :
    (selectionStage R assets = .error (.exit 1 "No such files on target release: %v")
      ↔ ∀ a ∈ assets, ∀ n, a.Name = some n → n ∉ R)
    ∧ ((∀ a ∈ assets, ∀ n, a.Name = some n → n ∉ R) → selectLoop R assets [] = .ok [])
    ∧ ((∃ a ∈ assets, ∃ n, a.Name = some n ∧ n ∈ R) →
        ∃ metas, metas ≠ [] ∧ selectionStage R assets = .ok metas) := by
  have hloop := selectLoop_all_named R assets hname []
  simp only [List.nil_append] at hloop
  have hget : ∀ a : ReleaseAsset, ∀ n, a.Name = some n → a.GetName = n := by
    intro a n hn
    simp [ReleaseAsset.GetName, hn]
  have hnil : (∀ a ∈ assets, ∀ n, a.Name = some n → n ∉ R) →
      assets.filter (fun a => decide (a.GetName ∈ R)) = [] := by
    intro h
    apply List.filter_eq_nil_iff.mpr
    intro a ha
    cases hn : a.Name with
    | none => exact absurd hn (hname a ha)
    | some n =>
      rw [hget a n hn]
      simpa using h a ha n hn
  have hne : (∃ a ∈ assets, ∃ n, a.Name = some n ∧ n ∈ R) →
      (assets.filter (fun a => decide (a.GetName ∈ R))).map ReleaseAsset.toMeta ≠ [] := by
    rintro ⟨a, ha, n, hn, hr⟩ hmap
    have hmem : a ∈ assets.filter (fun a => decide (a.GetName ∈ R)) :=
      List.mem_filter.mpr ⟨ha, by rw [hget a n hn]; simpa using hr⟩
    rw [List.map_eq_nil_iff] at hmap
    rw [hmap] at hmem
    exact absurd hmem (List.not_mem_nil a)
  have hstage : ∀ metas, selectLoop R assets [] = .ok metas →
      selectionStage R assets
        = if metas.length < 1 then .error (failf "No such files on target release: %v")
          else .ok metas := by
    intro metas hm
    simp only [selectionStage, hm, ok_bind]
    rfl
  have hlen : (∃ a ∈ assets, ∃ n, a.Name = some n ∧ n ∈ R) →
      ¬ (((assets.filter (fun a => decide (a.GetName ∈ R))).map ReleaseAsset.toMeta).length < 1) := by
    intro h
    have := List.length_pos.mpr (hne h)
    omega
  refine ⟨⟨?_, ?_⟩, ?_, ?_⟩
  · intro hfail
    by_contra hcon
    push_neg at hcon
    rw [hstage _ hloop, if_neg (hlen hcon)] at hfail
    cases hfail
  · intro h
    rw [hstage _ hloop, hnil h]
    rfl
  · intro h
    rw [hloop, hnil h]
    rfl
  · intro h
    refine ⟨_, hne h, ?_⟩
    rw [hstage _ hloop, if_neg (hlen h)]

/-- Witness of the amended C5: with the requested name `missing.zip` the stage
fails; with `a.zip` and `missing.zip` requested it returns a task, also for an asset
whose `URL` is nil. -/
theorem selectionStage_fails_iff_witness :
    selectionStage ["missing.zip".toList]
        [ReleaseAsset.named "a.zip".toList "https://api/assets/1".toList]
      = .error (.exit 1 "No such files on target release: %v")
    ∧ ∃ metas, metas ≠ []
        ∧ selectionStage ["a.zip".toList, "missing.zip".toList]
            [ReleaseAsset.mk (some "a.zip".toList) none] = .ok metas :=
  ⟨(selectionStage_fails_iff [ReleaseAsset.named "a.zip".toList "https://api/assets/1".toList]
      ["missing.zip".toList] (by decide)).1.mpr (by decide),
   (selectionStage_fails_iff [ReleaseAsset.mk (some "a.zip".toList) none]
      ["a.zip".toList, "missing.zip".toList] (by decide)).2.2
      ⟨ReleaseAsset.mk (some "a.zip".toList) none, by decide, "a.zip".toList, rfl, by decide⟩⟩

/-- Counterexample to C5: on the assets `a.zip` and one whose `Name` is nil, with
`a.zip` requested, an asset name is in `R` and yet the stage stops with the
nil-pointer panic of `*asset.Name`; and on the single asset whose `Name` is nil no
asset has a name in `R`, and the stage stops with that panic, not through the fatal
path with exit code 1. -/
theorem selectionStage_nil_name_panics :
    (selectionStage ["a.zip".toList]
          [ReleaseAsset.named "a.zip".toList "https://api/assets/1".toList,
           ReleaseAsset.mk none none]
        = .error (.panic .nilPointerDereference)
      ∧ ∃ a ∈ [ReleaseAsset.named "a.zip".toList "https://api/assets/1".toList,
               ReleaseAsset.mk none none],
          ∃ n, a.Name = some n ∧ n ∈ ["a.zip".toList])
    ∧ (selectionStage ["a.zip".toList] [ReleaseAsset.mk none none]
        = .error (.panic .nilPointerDereference)
      ∧ selectionStage ["a.zip".toList] [ReleaseAsset.mk none none]
        ≠ .error (.exit 1 "No such files on target release: %v")
      ∧ ∀ a ∈ [ReleaseAsset.mk none none], ∀ n, a.Name = some n → n ∉ ["a.zip".toList]) := by
  refine ⟨⟨by rfl, ReleaseAsset.named "a.zip".toList "https://api/assets/1".toList,
    by decide, "a.zip".toList, rfl, by decide⟩, by rfl, ?_, ?_⟩
  · have h : selectionStage ["a.zip".toList] [ReleaseAsset.mk none none]
        = .error (.panic .nilPointerDereference) := by rfl
    rw [h]
    intro h2
    cases h2
  · intro a ha n hn
    simp only [List.mem_singleton] at ha
    subst ha
    cases hn

/-- C10: the selection depends only on which names occur in the requested list:
for requested lists with the same elements the loop and the whole stage give the
same result on every asset list; repeating a requested name changes nothing; and
the tasks built form a sublist of the per-asset tasks, one asset giving at most one
task, so there are at most as many tasks as assets. -/
theorem selection_depends_on_names_only (assets : List ReleaseAsset) :
    (∀ R R' : List GoString, (∀ x, x ∈ R ↔ x ∈ R') →
        selectLoop R assets [] = selectLoop R' assets []
          ∧ selectionStage R assets = selectionStage R' assets)
    ∧ (∀ (R : List GoString) (x : GoString),
        selectLoop (x :: x :: R) assets [] = selectLoop (x :: R) assets [])
    ∧ (∀ (R : List GoString) (metas : List Meta), selectLoop R assets [] = .ok metas →
        metas.Sublist (assets.map ReleaseAsset.toMeta) ∧ metas.length ≤ assets.length) := by
  refine ⟨?_, ?_, ?_⟩
  · intro R R' h
    have hl := selectLoop_congr R R' h assets []
    exact ⟨hl, by simp only [selectionStage, hl]⟩
  · intro R x
    exact selectLoop_congr _ _ (by intro y; simp) assets []
  · intro R metas h
    obtain ⟨sel, h1, h2⟩ := selectLoop_sublist R assets [] metas h
    simp only [List.nil_append] at h1
    subst h1
    exact ⟨h2, by simpa using h2.length_le⟩

/-- Witness of C10: the requested lists `[c.zip, a.zip, a.zip]` and `[a.zip, c.zip]`
select the same two tasks from the assets `a.zip`, `b.zip`, `c.zip`. -/
theorem selection_depends_on_names_only_witness :
    selectLoop ["c.zip".toList, "a.zip".toList, "a.zip".toList]
        [ReleaseAsset.named "a.zip".toList "u1".toList,
         ReleaseAsset.named "b.zip".toList "u2".toList,
         ReleaseAsset.named "c.zip".toList "u3".toList] []
      = selectLoop ["a.zip".toList, "c.zip".toList]
        [ReleaseAsset.named "a.zip".toList "u1".toList,
         ReleaseAsset.named "b.zip".toList "u2".toList,
         ReleaseAsset.named "c.zip".toList "u3".toList] []
    ∧ [Meta.mk "a.zip".toList "u1".toList, Meta.mk "c.zip".toList "u3".toList].length ≤ 3 :=
  ⟨((selection_depends_on_names_only
      [ReleaseAsset.named "a.zip".toList "u1".toList,
       ReleaseAsset.named "b.zip".toList "u2".toList,
       ReleaseAsset.named "c.zip".toList "u3".toList]).1
      ["c.zip".toList, "a.zip".toList, "a.zip".toList] ["a.zip".toList, "c.zip".toList]
      (by intro x; simp [or_comm])).1,
   ((selection_depends_on_names_only
      [ReleaseAsset.named "a.zip".toList "u1".toList,
       ReleaseAsset.named "b.zip".toList "u2".toList,
       ReleaseAsset.named "c.zip".toList "u3".toList]).2.2
      ["a.zip".toList, "c.zip".toList]
      [Meta.mk "a.zip".toList "u1".toList, Meta.mk "c.zip".toList "u3".toList] (by rfl)).2⟩

/-! ## `getRelease` -/

/-- C7: `getRelease` returns the result of the 'get latest release' lookup for
`(owner, repo)` when `tag` is the string `"latest"` and the result of the 'get
release by tag' lookup for `(owner, repo, tag)` otherwise, unmodified; on the
recording client the call issued is the first exactly when `tag = "latest"` and the
second, with the tag passed through, exactly when it is not. -/
theorem getRelease_dispatch {ρ : Type} (client : RepositoriesService ρ)
    (tag owner repo : GoString) :
    (tag = latestTag → getRelease client tag owner repo = client.GetLatestRelease owner repo)
    ∧ (tag ≠ latestTag →
        getRelease client tag owner repo = client.GetReleaseByTag owner repo tag)
    ∧ (getRelease recordingClient tag owner repo = ApiCall.latestRelease owner repo
        ↔ tag = latestTag)
    ∧ (getRelease recordingClient tag owner repo = ApiCall.releaseByTag owner repo tag
        ↔ tag ≠ latestTag) := by
  by_cases h : tag = latestTag
  · have hb : (tag == latestTag) = true := by simp [h]
    simp [getRelease, hb, h, recordingClient]
  · have hb : (tag == latestTag) = false := by simp [h]
    simp [getRelease, hb, h, recordingClient]

/-- Witness of C7: the tag `"latest"` asks for the latest release; the tags
`"Latest"` and `"latest "` ask for the release with that tag. -/
theorem getRelease_dispatch_witness :
    getRelease recordingClient "latest".toList "acme".toList "widgets".toList
      = ApiCall.latestRelease "acme".toList "widgets".toList
    ∧ getRelease recordingClient "Latest".toList "acme".toList "widgets".toList
      = ApiCall.releaseByTag "acme".toList "widgets".toList "Latest".toList
    ∧ getRelease recordingClient "latest ".toList "acme".toList "widgets".toList
      = ApiCall.releaseByTag "acme".toList "widgets".toList "latest ".toList :=
  ⟨(getRelease_dispatch recordingClient "latest".toList "acme".toList "widgets".toList).1
      (by rfl),
   (getRelease_dispatch recordingClient "Latest".toList "acme".toList "widgets".toList).2.1
      (by decide),
   (getRelease_dispatch recordingClient "latest ".toList "acme".toList "widgets".toList).2.1
      (by decide)⟩

/-! ## `parseRepo` on URLs outside the three shapes -/

theorem parseRepo_of_switch_error (u : GoString) (e : GoPanic)
    (h : switchHostRepo (TrimSuffix u dotGit) = .error e) : parseRepo u = .error e := by
  simp only [parseRepo, h]
  rfl

theorem splitOwnerName_one (host repo : GoString) (h : '/' ∉ repo) :
    splitOwnerName host repo = .error .indexOutOfRange := by
  simp only [splitOwnerName, Split_single_not_mem '/' repo h]
  rfl

theorem Split_single_three (c : Char) (a b rest : GoString) (ha : c ∉ a) (hb : c ∉ b) :
    ∃ tail, Split (a ++ c :: (b ++ c :: rest)) [c] = a :: b :: tail := by
  have h1 : Index (a ++ c :: (b ++ c :: rest)) [c] = (a.length : Int) :=
    Index_single_append c a _ ha
  have h2 : Index (b ++ c :: rest) [c] = (b.length : Int) := Index_single_append c b _ hb
  have hlen : (a ++ c :: (b ++ c :: rest)).length = (a.length + b.length + rest.length) + 1 + 1 := by
    simp only [List.length_append, List.length_cons]
    omega
  refine ⟨genSplit [c] (a.length + b.length + rest.length) rest, ?_⟩
  have ha2 : ¬ ((a.length : Int) < 0) := by omega
  have hb2 : ¬ ((b.length : Int) < 0) := by omega
  simp [Split, hlen, genSplit, h1, h2, ha2, hb2]

theorem splitOwnerName_three (host owner name extra : GoString)
    (ho : '/' ∉ owner) (hn : '/' ∉ name) :
    splitOwnerName host (owner ++ '/' :: (name ++ '/' :: extra)) = .ok (host, owner, name) := by
  obtain ⟨tail, ht⟩ := Split_single_three '/' owner name extra ho hn
  simp only [splitOwnerName, ht]
  rfl

theorem switchHostRepo_no_scheme (url : GoString) (h1 : HasPrefix url httpsScheme = false)
    (h2 : HasPrefix url gitAt = false) (h3 : HasPrefix url sshScheme = false) :
    switchHostRepo url = .ok ([], []) := by
  simp only [switchHostRepo, h1, h2, h3, Bool.false_eq_true, if_false]
  rfl

theorem sliceTo_neg_one (s : GoString) : sliceTo s (-1) = .error .sliceBoundsOutOfRange := by
  simp [sliceTo]

theorem switchHostRepo_https_no_slash (rest : GoString) (h : '/' ∉ rest) :
    switchHostRepo (httpsScheme ++ rest) = .error .sliceBoundsOutOfRange := by
  simp only [switchHostRepo, HasPrefix_append, TrimPrefix_append, if_true,
    Index_single_not_mem '/' rest h, sliceTo_neg_one]
  rfl

theorem switchHostRepo_gitAt_no_colon (rest : GoString) (h : ':' ∉ rest) :
    switchHostRepo (gitAt ++ rest) = .error .sliceBoundsOutOfRange := by
  have hp : HasPrefix (gitAt ++ rest) httpsScheme = false := rfl
  have hi : Index (gitAt ++ rest) ['@'] = ((['g', 'i', 't'] : GoString).length : Int) :=
    Index_single_append '@' ['g', 'i', 't'] rest (by decide)
  have hs : sliceFrom (gitAt ++ rest) (((['g', 'i', 't'] : GoString).length : Int) + 1)
      = .ok rest := sliceFrom_append ['g', 'i', 't'] rest '@'
  simp only [switchHostRepo, hp, HasPrefix_append, ok_bind, hi, hs, if_true, Bool.false_eq_true,
    if_false, Index_single_not_mem ':' rest h, sliceTo_neg_one]
  rfl

theorem switchHostRepo_ssh_no_colon (user rest : GoString) (hu : '@' ∉ user) (h : ':' ∉ rest) :
    switchHostRepo (sshScheme ++ (user ++ '@' :: rest)) = .error .sliceBoundsOutOfRange := by
  have h1 : HasPrefix (sshScheme ++ (user ++ '@' :: rest)) httpsScheme = false := rfl
  have h2 : HasPrefix (sshScheme ++ (user ++ '@' :: rest)) gitAt = false := rfl
  have hat : '@' ∉ sshScheme ++ user := by
    simp only [List.mem_append, not_or]
    exact ⟨by decide, hu⟩
  have hi : Index (sshScheme ++ (user ++ '@' :: rest)) ['@']
      = ((sshScheme ++ user).length : Int) := by
    have := Index_single_append '@' (sshScheme ++ user) rest hat
    simpa using this
  have hs : sliceFrom (sshScheme ++ (user ++ '@' :: rest))
      (((sshScheme ++ user).length : Int) + 1) = .ok rest := by
    have := sliceFrom_append (sshScheme ++ user) rest '@'
    simpa using this
  simp only [switchHostRepo, h1, h2, HasPrefix_append, ok_bind, hi, hs, if_true,
    Bool.false_eq_true, if_false, Index_single_not_mem ':' rest h, sliceTo_neg_one]
  rfl

/-- C6, as the code behaves: `parseRepo` has no error result. On a URL whose
stripped form has none of the three prefixes it panics with index out of range; on
an `https://` or `git@` URL, or an `ssh://` URL with a user part, whose host
delimiter is missing it panics with slice bounds out of range; when the remainder
left by the `switch` has a single component it panics with index out of range; and
when the remainder has three or more components it returns the host with the first
two components and ignores the rest. -/
theorem parseRepo_outside_shapes (u : GoString) :
    (HasPrefix (TrimSuffix u dotGit) httpsScheme = false →
      HasPrefix (TrimSuffix u dotGit) gitAt = false →
      HasPrefix (TrimSuffix u dotGit) sshScheme = false →
        parseRepo u = .error .indexOutOfRange)
    ∧ (∀ rest, TrimSuffix u dotGit = httpsScheme ++ rest → '/' ∉ rest →
        parseRepo u = .error .sliceBoundsOutOfRange)
    ∧ (∀ rest, TrimSuffix u dotGit = gitAt ++ rest → ':' ∉ rest →
        parseRepo u = .error .sliceBoundsOutOfRange)
    ∧ (∀ user rest, TrimSuffix u dotGit = sshScheme ++ user ++ ['@'] ++ rest →
        '@' ∉ user → ':' ∉ rest → parseRepo u = .error .sliceBoundsOutOfRange)
    ∧ (∀ host repo, switchHostRepo (TrimSuffix u dotGit) = .ok (host, repo) → '/' ∉ repo →
        parseRepo u = .error .indexOutOfRange)
    ∧ (∀ host owner name extra,
        switchHostRepo (TrimSuffix u dotGit) = .ok (host, owner ++ ['/'] ++ name ++ ['/'] ++ extra) →
        '/' ∉ owner → '/' ∉ name → parseRepo u = .ok (host, owner, name)) := by
  refine ⟨?_, ?_, ?_, ?_, ?_, ?_⟩
  · intro h1 h2 h3
    rw [parseRepo_of_switch u [] [] (switchHostRepo_no_scheme _ h1 h2 h3)]
    exact splitOwnerName_one [] [] (List.not_mem_nil _)
  · intro rest hu hr
    exact parseRepo_of_switch_error u _ (by rw [hu]; exact switchHostRepo_https_no_slash rest hr)
  · intro rest hu hr
    exact parseRepo_of_switch_error u _ (by rw [hu]; exact switchHostRepo_gitAt_no_colon rest hr)
  · intro user rest hu hus hr
    refine parseRepo_of_switch_error u _ ?_
    rw [hu]
    simp only [List.append_assoc, List.cons_append, List.nil_append]
    exact switchHostRepo_ssh_no_colon user rest hus hr
  · intro host repo hs hr
    rw [parseRepo_of_switch u host repo hs]
    exact splitOwnerName_one host repo hr
  · intro host owner name extra hs ho hn
    rw [parseRepo_of_switch u host _ hs]
    simp only [List.append_assoc, List.cons_append, List.nil_append]
    exact splitOwnerName_three host owner name extra ho hn

/-- Witness of the amended C6: `"foo"` and `"https://h/o"` panic with index out of
range, `"https://h"` panics with slice bounds out of range, and
`"https://h/o/n/extra"` returns `("h", "o", "n")`. -/
theorem parseRepo_outside_shapes_witness :
    parseRepo "foo".toList = .error .indexOutOfRange
    ∧ parseRepo "https://h".toList = .error .sliceBoundsOutOfRange
    ∧ parseRepo "https://h/o".toList = .error .indexOutOfRange
    ∧ parseRepo "https://h/o/n/extra".toList = .ok ("h".toList, "o".toList, "n".toList) :=
  ⟨(parseRepo_outside_shapes "foo".toList).1 (by rfl) (by rfl) (by rfl),
   (parseRepo_outside_shapes "https://h".toList).2.1 "h".toList (by rfl) (by decide),
   (parseRepo_outside_shapes "https://h/o".toList).2.2.2.2.1 "h".toList "o".toList
      (by rfl) (by decide),
   (parseRepo_outside_shapes "https://h/o/n/extra".toList).2.2.2.2.2
      "h".toList "o".toList "n".toList "extra".toList (by rfl) (by decide) (by decide)⟩

/-- Counterexample to C6: on `"foo"`, which has none of the three prefixes,
`parseRepo` fails with the index-out-of-range panic, and on `"https://h/o/n/extra"`,
whose remainder has four components, it returns the triple `("h", "o", "n")`. -/
theorem parseRepo_no_malformed_url_error :
    parseRepo "foo".toList = .error .indexOutOfRange
    ∧ parseRepo "https://h/o/n/extra".toList = .ok ("h".toList, "o".toList, "n".toList) :=
  ⟨by rfl, by rfl⟩

/-! ## Stripping the `".git"` suffix -/

theorem TrimSuffix_length_lt (s suf : GoString) (hsuf : suf ≠ []) (h : HasSuffix s suf = true) :
    (TrimSuffix s suf).length < s.length := by
  have hs : suf <:+ s := by simpa [HasSuffix] using h
  have hl := hs.length_le
  have hpos : 0 < suf.length := List.length_pos.mpr hsuf
  simp only [TrimSuffix, h, if_true, List.length_take]
  omega

/-- C8, as the code behaves: `strings.TrimSuffix(url, ".git")` removes one `".git"`.
Stripping a second time changes nothing exactly when the stripped URL does not end
in `".git"`, and for those URLs parsing the stripped URL gives the same result as
parsing the URL it was stripped from. -/
theorem strip_idempotent_iff (u : GoString) :
    (TrimSuffix (TrimSuffix u dotGit) dotGit = TrimSuffix u dotGit
        ↔ HasSuffix (TrimSuffix u dotGit) dotGit = false)
    ∧ (HasSuffix (TrimSuffix u dotGit) dotGit = false →
        parseRepo (TrimSuffix u dotGit) = parseRepo u) := by
  refine ⟨⟨?_, ?_⟩, ?_⟩
  · intro h
    cases hs : HasSuffix (TrimSuffix u dotGit) dotGit with
    | false => rfl
    | true =>
      have hlt := TrimSuffix_length_lt (TrimSuffix u dotGit) dotGit (by decide) hs
      rw [h] at hlt
      exact absurd hlt (Nat.lt_irrefl _)
  · intro h
    exact TrimSuffix_of_not _ _ h
  · intro h
    simp only [parseRepo, TrimSuffix_of_not _ _ h]

/-- Witness of the amended C8: `"https://h/o/n.git"` is stripped to `"https://h/o/n"`,
which stripping leaves alone and which parses like the original. -/
theorem strip_idempotent_iff_witness :
    TrimSuffix (TrimSuffix "https://h/o/n.git".toList dotGit) dotGit
        = TrimSuffix "https://h/o/n.git".toList dotGit
    ∧ parseRepo (TrimSuffix "https://h/o/n.git".toList dotGit)
        = parseRepo "https://h/o/n.git".toList :=
  ⟨(strip_idempotent_iff "https://h/o/n.git".toList).1.mpr (by rfl),
   (strip_idempotent_iff "https://h/o/n.git".toList).2 (by rfl)⟩

/-- Counterexample to C8: on `"https://h/o/n.git.git"` stripping twice differs from
stripping once, and parsing the stripped URL gives the name `"n"` while parsing the
URL itself gives the name `"n.git"`. -/
theorem strip_not_idempotent :
    TrimSuffix (TrimSuffix "https://h/o/n.git.git".toList dotGit) dotGit
        ≠ TrimSuffix "https://h/o/n.git.git".toList dotGit
    ∧ parseRepo (TrimSuffix "https://h/o/n.git.git".toList dotGit)
        ≠ parseRepo "https://h/o/n.git.git".toList := by
  refine ⟨by decide, ?_⟩
  have h1 : parseRepo (TrimSuffix "https://h/o/n.git.git".toList dotGit)
      = .ok ("h".toList, "o".toList, "n".toList) := by rfl
  have h2 : parseRepo "https://h/o/n.git.git".toList
      = .ok ("h".toList, "o".toList, "n.git".toList) := by rfl
  rw [h1, h2]
  intro h
  injection h with h
  revert h
  decide

end GithubReleaseDownloader
